import Mathlib

/-!
Shallow embedding of the status-tray extension's protocol broker and client
state machine (src/extension.js, src/prefs.js), together with proofs about
icon resolution, registry registration, pixel-format conversion, best-size
selection, item ordering, menu normalization and theme-chain resolution.

Remote I/O (D-Bus replies, file existence probes, theme lookups) is modelled
by explicit oracle parameters; all functions are pure translations of the
JavaScript control flow.
-/

namespace StatusTray

/-! ### Generic list and string helpers -/

/-- Element of a list at an index, with a default (models JS indexed reads,
where an out-of-bounds read yields `undefined` and storing it into a
`Uint8Array` stores 0). -/
def nthD {α : Type} : List α → Nat → α → α
  | [], _, d => d
  | x :: _, 0, _ => x
  | _ :: t, n + 1, d => nthD t n d

/-- Whether the first character list starts the second
(models `String.prototype.startsWith`). -/
def charListStarts : List Char → List Char → Bool
  | [], _ => true
  | _ :: _, [] => false
  | p :: ps, c :: cs => p == c && charListStarts ps cs

/-- Whether string `p` starts string `s`. -/
def strStarts (p s : String) : Bool :=
  charListStarts p.data s.data

/-- Drop a literal pattern from the front of a character list, or fail. -/
def dropLit? : List Char → List Char → Option (List Char)
  | [], cs => some cs
  | _ :: _, [] => none
  | p :: ps, c :: cs => if p == c then dropLit? ps cs else none

/-- First index of an element in a list (length of the list when absent).
This is exactly how `Array.prototype.indexOf`-based comparison keys behave
once `-1` is mapped past every real index. -/
def firstIdx {α : Type} [DecidableEq α] (x : α) : List α → Nat
  | [] => 0
  | y :: ys => if y = x then 0 else firstIdx x ys + 1

/-! ### PixelCodec: `_argbToRgba` and best-size selection

`TrayItem._setIconFromPixmap` (extension.js:1048-1060) and the preferences
row preview (prefs.js:429-441) scan all pixmap candidates, seeding the best
candidate with the first list element and replacing it by an in-range
candidate only when strictly closer to the target size.  The effect-editing
dialog (prefs.js:1240-1252) runs the same scan without the range check. -/

/-- Distance between two naturals, |a - b|. -/
def natDist (a b : Nat) : Nat := max a b - min a b

/-- The `width >= 16 && width <= 48` candidate filter. -/
def inSizeRange (w : Nat) : Bool := decide (16 ≤ w) && decide (w ≤ 48)

/-- One step of the best-size loop in `_setIconFromPixmap`
(extension.js:1052-1060). -/
def selectStep (target best w : Nat) : Nat :=
  if inSizeRange w = true ∧ natDist w target < natDist best target then w else best

/-- Best-size selection of `TrayItem._setIconFromPixmap`
(extension.js:1048-1060): seed with the first candidate, then scan. -/
def selectBestSize (cands : List Nat) (target : Nat) : Option Nat :=
  match cands with
  | [] => none
  | first :: _ => some (cands.foldl (fun best w => selectStep target best w) first)

/-- Best-size selection of the preferences row preview `_fetchIconPixmap`
(prefs.js:429-441); textually the same loop as the extension's. -/
def prefsSelectBestSize (cands : List Nat) (target : Nat) : Option Nat :=
  match cands with
  | [] => none
  | first :: _ => some (cands.foldl (fun best w => selectStep target best w) first)

/-- One step of the best-size loop in `IconEffectDialog._setIconFromPixmap`
(prefs.js:1246-1252): no `[16,48]` range check. -/
def dialogStep (target best w : Nat) : Nat :=
  if natDist w target < natDist best target then w else best

/-- Best-size selection of the effect-editing preview
(prefs.js:1240-1252). -/
def dialogSelectBestSize (cands : List Nat) (target : Nat) : Option Nat :=
  match cands with
  | [] => none
  | first :: _ => some (cands.foldl (fun best w => dialogStep target best w) first)

/-- `TrayItem._argbToRgba` (extension.js:1165-1185): a linear scan over
`width*height` pixels; pixel `i` reads bytes `4i..4i+3` as `[A,R,G,B]` and
writes `[R,G,B,A]`. -/
def argbToRgba (argb : List Nat) (width height : Nat) : List Nat :=
  (List.range (width * height)).flatMap fun i =>
    [nthD argb (4 * i + 1) 0, nthD argb (4 * i + 2) 0,
     nthD argb (4 * i + 3) 0, nthD argb (4 * i) 0]

/-! ### IdentityResolver: `extractFlatpakAppId`, `_resolveAppId`,
`_fetchIdDirect` -/

/-- Attempt the regex `\/run\/user\/\d+\/app\/([^/]+)` at the head of the
character list: the literal `/run/user/`, one or more digits, the literal
`/app/`, then a non-empty capture of non-slash characters. -/
def flatpakAt (cs : List Char) : Option String :=
  match dropLit? "/run/user/".data cs with
  | none => none
  | some cs1 =>
    if (cs1.takeWhile (fun c => c.isDigit)).isEmpty then none
    else
      match dropLit? "/app/".data (cs1.dropWhile (fun c => c.isDigit)) with
      | none => none
      | some cs3 =>
        let cap := cs3.takeWhile (fun c => c != '/')
        if cap.isEmpty then none else some (String.mk cap)

/-- Leftmost-match scan for the pattern above. -/
def flatpakScan : List Char → Option String
  | [] => none
  | c :: cs =>
    match flatpakAt (c :: cs) with
    | some r => some r
    | none => flatpakScan cs

/-- `extractFlatpakAppId` (extension.js:228-232): first match of
`\/run\/user\/\d+\/app\/([^/]+)` in the icon theme path, if any. -/
def extractFlatpakAppId? (s : String) : Option String :=
  flatpakScan s.data

/-- The SNI `Id` acceptance test used by both resolution paths
(extension.js:395 and :789): non-empty, no leading colon, not a generic
`chrome_status_icon_*` placeholder. -/
def validSniId (sniId : String) : Bool :=
  decide (sniId ≠ "") && !strStarts ":" sniId && !strStarts "chrome_status_icon_" sniId

/-- The `newAppId` candidate computed by `TrayItem._resolveAppId`
(extension.js:362-400): ToolTip title first, then the Flatpak id from the
icon theme path, then a valid SNI `Id`. -/
def resolveCandidate (toolTipTitle : Option String)
    (iconThemePath : Option String) (sniId : Option String) : Option String :=
  let n1 : Option String :=
    match toolTipTitle with
    | some t => if t ≠ "" then some t else none
    | none => none
  let n2 : Option String :=
    match n1 with
    | some v => some v
    | none =>
      match iconThemePath with
      | some tp => if tp ≠ "" then extractFlatpakAppId? tp else none
      | none => none
  match n2 with
  | some v => some v
  | none =>
    match sniId with
    | some s => if validSniId s then some s else none
    | none => none

/-- `TrayItem._resolveAppId` (extension.js:362-407), the proxy-based path.
Inputs model the cached properties: the ToolTip's title field (when the
property is present and parses), the cached icon theme path and the SNI
`Id` property.  Returns the new `appId` together with the list of
`appid-resolved` emissions performed: the candidate is adopted and
announced only when it differs from the current appId
(extension.js:402-406). -/
def resolveAppId (oldAppId : String) (toolTipTitle : Option String)
    (iconThemePath : Option String) (sniId : Option String) :
    String × List String :=
  match resolveCandidate toolTipTitle iconThemePath sniId with
  | some v => if v ≠ oldAppId then (v, [v]) else (oldAppId, [])
  | none => (oldAppId, [])

/-- `TrayItem._fetchSniIdDirect` (extension.js:771-802): emits whenever the
reply passes the `Id` validity test, without comparing to the old value. -/
def fetchSniIdDirect (oldAppId : String) (sniReply : Option String) :
    String × List String :=
  match sniReply with
  | some s => if validSniId s then (s, [s]) else (oldAppId, [])
  | none => (oldAppId, [])

/-- `TrayItem._fetchIdFromIconThemePathDirect` (extension.js:731-769):
emits whenever a Flatpak id is extracted, without comparing to the old
value; otherwise falls through to the SNI `Id` fetch. -/
def fetchIdFromThemePathDirect (oldAppId : String)
    (themePathReply : Option String) (sniReply : Option String) :
    String × List String :=
  match themePathReply with
  | some tp =>
    if tp ≠ "" then
      match extractFlatpakAppId? tp with
      | some fid => (fid, [fid])
      | none => fetchSniIdDirect oldAppId sniReply
    else fetchSniIdDirect oldAppId sniReply
  | none => fetchSniIdDirect oldAppId sniReply

/-- `TrayItem._fetchIdDirect` (extension.js:693-729), the direct-call
fallback identity chain: ToolTip title first (emitting whenever the title
is non-empty, with no comparison against the current appId), then the
theme-path Flatpak heuristic, then the SNI `Id`.  `none` replies model
failed calls. -/
def fetchIdDirect (oldAppId : String) (toolTipReply : Option String)
    (themePathReply : Option String) (sniReply : Option String) :
    String × List String :=
  match toolTipReply with
  | some t =>
    if t ≠ "" then (t, [t])
    else fetchIdFromThemePathDirect oldAppId themePathReply sniReply
  | none => fetchIdFromThemePathDirect oldAppId themePathReply sniReply

/-! ### IconResolver: `TrayItem._updateIcon` and `_setIcon`

The filesystem and the theme engine are modelled as oracles in `FsEnv`:
`fileExists` models `GLib.file_test`/`Gio.File.query_exists`,
`findIconInTheme` the theme-directory probe of `findIconInTheme`
(extension.js:82-125, modelled separately for the theme-chain claim), and
the `remote*`/`direct*` fields model the D-Bus property replies consumed by
the asynchronous fallback fetches (`none` = errored call).  Cancellation is
not modelled: a destroyed item performs no further icon updates. -/

/-- The icon source finally installed on the `St.Icon`. -/
inductive IconRes where
  | file (path : String)
  | named (name : String)
  | pixmapIcon (w h : Nat)
  | nores
deriving DecidableEq

/-- Cached SNI proxy properties consumed by `_updateIcon`. -/
structure ProxyProps where
  iconName : Option String
  iconPixmap : Option (List (Nat × Nat))

/-- Oracles for filesystem probes and direct D-Bus replies. -/
structure FsEnv where
  fileExists : String → Bool
  findIconInTheme : String → Option String
  remotePixmaps : Option (List (Nat × Nat))
  directThemePath : Option String
  directIconName : Option String
  directPixmaps : Option (List (Nat × Nat))

/-- The pixmap best-size scan of `_setIconFromPixmap` at the live panel's
target of 22px, over (width, height) pairs (extension.js:1048-1060). -/
def livePixmapBest (pms : List (Nat × Nat)) (first : Nat × Nat) : Nat × Nat :=
  pms.foldl
    (fun best p =>
      if inSizeRange p.1 = true ∧ natDist p.1 22 < natDist best.1 22 then p
      else best)
    first

/-- `TrayItem._setIconFromPixmap` (extension.js:1022-1162): nothing is set
for an empty pixmap list, otherwise the best-size pixmap is displayed. -/
def setIconFromPixmapRes (pms : List (Nat × Nat)) : IconRes :=
  match pms with
  | [] => .nores
  | first :: _ =>
    let best := livePixmapBest pms first
    .pixmapIcon best.1 best.2

/-- `TrayItem._setIconFromThemeFile` (extension.js:930-943). -/
def setIconFromThemeFile (env : FsEnv) (iconName : String) : IconRes :=
  match env.findIconInTheme iconName with
  | some p => .file p
  | none => .named iconName

/-- `TrayItem._fetchIconPixmapWithFallback` (extension.js:596-631). -/
def fetchIconPixmapWithFallback (env : FsEnv) (iconName : String) : IconRes :=
  match env.remotePixmaps with
  | some pms =>
    if pms ≠ [] then setIconFromPixmapRes pms
    else setIconFromThemeFile env iconName
  | none => setIconFromThemeFile env iconName

/-- The tail of `TrayItem._setIcon` when no theme path is set
(extension.js:896-910). -/
def setIconThemeless (env : FsEnv) (iconName : String) : IconRes :=
  match env.findIconInTheme iconName with
  | some p => .file p
  | none => .named iconName

/-- The candidate file paths probed under an advertised theme path
(extension.js:858-864). -/
def possiblePaths (tp iconName : String) : List String :=
  [tp ++ "/" ++ iconName ++ ".png",
   tp ++ "/" ++ iconName ++ ".svg",
   tp ++ "/hicolor/22x22/apps/" ++ iconName ++ ".png",
   tp ++ "/hicolor/24x24/apps/" ++ iconName ++ ".png",
   tp ++ "/hicolor/32x32/apps/" ++ iconName ++ ".png"]

/-- `TrayItem._setIcon` (extension.js:840-911): absolute path (if the file
exists), then theme-path probing, then the Flatpak-id heuristic, then the
pixmap-with-fallback fetch; without a theme path, a local theme probe with
a named-icon fallback. -/
def setIcon (env : FsEnv) (themePath : Option String) (iconName : String) :
    IconRes :=
  if strStarts "/" iconName = true ∧ env.fileExists iconName = true then
    .file iconName
  else
    match themePath with
    | some tp =>
      if tp ≠ "" then
        match (possiblePaths tp iconName).find? env.fileExists with
        | some p => .file p
        | none =>
          match extractFlatpakAppId? tp with
          | some fid =>
            (match env.findIconInTheme fid with
             | some fp => .file fp
             | none => fetchIconPixmapWithFallback env iconName)
          | none => fetchIconPixmapWithFallback env iconName
      else setIconThemeless env iconName
    | none => setIconThemeless env iconName

/-- `TrayItem._fetchIconPixmapDirect` (extension.js:569-594). -/
def directPixmapStep (env : FsEnv) : IconRes :=
  match env.directPixmaps with
  | some pms => setIconFromPixmapRes pms
  | none => .nores

/-- `TrayItem._fetchIconDirect` and `_fetchIconNameDirect`
(extension.js:492-567): refresh the theme path from a direct reply, then
use a direct `IconName` reply, else the stored fallback override, else the
direct pixmap fetch. -/
def fetchIconDirectRes (env : FsEnv) (themePath : Option String)
    (fb : Option String) : IconRes :=
  let tp : Option String :=
    match env.directThemePath with
    | some s => some s
    | none => themePath
  match env.directIconName with
  | some n =>
    if n ≠ "" then setIcon env tp n
    else
      match fb with
      | some o => setIcon env tp o
      | none => directPixmapStep env
  | none =>
    match fb with
    | some o => setIcon env tp o
    | none => directPixmapStep env

/-- The part of `_updateIcon` after the cached `IconName` turned out empty
or absent (extension.js:474-489): fallback override, then cached pixmap,
then the direct fetch chain. -/
def updateIconNoName (env : FsEnv) (themePath : Option String)
    (fb : Option String) (pr : ProxyProps) : IconRes :=
  match fb with
  | some o => setIcon env themePath o
  | none =>
    match pr.iconPixmap with
    | some pms => setIconFromPixmapRes pms
    | none => fetchIconDirectRes env themePath none

/-- The part of `_updateIcon` after the override block
(extension.js:448-490): `fb` is the stored fallback-only override. -/
def updateIconRest (env : FsEnv) (themePath : Option String)
    (fb : Option String) (proxy : Option ProxyProps) : IconRes :=
  match proxy with
  | none =>
    (match fb with
     | some o => setIcon env themePath o
     | none => .nores)
  | some pr =>
    match pr.iconName with
    | some n =>
      if n ≠ "" then setIcon env themePath n
      else updateIconNoName env themePath fb pr
    | none => updateIconNoName env themePath fb pr

/-- First value for a key in an association list (models a JS object
lookup on the unpacked `a{ss}` override map). -/
def lookupStr (m : List (String × String)) (k : String) : Option String :=
  match m.find? (fun p => p.1 == k) with
  | some p => some p.2
  | none => none

/-- `TrayItem._updateIcon` (extension.js:409-490).  A truthy override for
`appId` is used immediately unless `appId` is listed fallback-only, in
which case it is stored and the advertised sources are tried first.  An
empty-string override is falsy in `if (overrides[this._appId])` and is
ignored entirely. -/
def updateIcon (appId : String) (overrides : List (String × String))
    (fallbackApps : List String) (proxy : Option ProxyProps)
    (themePath : Option String) (env : FsEnv) : IconRes :=
  match lookupStr overrides appId with
  | some o =>
    if o ≠ "" then
      if fallbackApps.contains appId then
        updateIconRest env themePath (some o) proxy
      else if strStarts "/" o then .file o
      else .named o
    else updateIconRest env themePath none proxy
  | none => updateIconRest env themePath none proxy

/-! ### Registry: `StatusNotifierWatcher._registerItemInternal`
(extension.js:1792-1827) -/

/-- One tracked registry entry. -/
structure ItemInfo where
  busName : String
  objectPath : String
  appId : Option String
deriving DecidableEq

/-- Registry state: the tracked item map (insertion-ordered, as a JS
`Map`), the per-item name-watch subscriptions, and the log of
`StatusNotifierItemRegistered` emissions. -/
structure RegState where
  items : List (String × ItemInfo)
  watchIds : List String
  signals : List String
deriving DecidableEq

/-- `StatusNotifierWatcher._registerItemInternal` (extension.js:1792-1827):
an already-tracked `uniqueId` returns immediately; otherwise the item is
tracked, a name watch is subscribed and `StatusNotifierItemRegistered` is
emitted. -/
def registerItemInternal (st : RegState) (busName objectPath : String) :
    RegState :=
  let uniqueId := busName ++ objectPath
  if st.items.any (fun p => p.1 == uniqueId) then st
  else
    { items := st.items ++ [(uniqueId, ⟨busName, objectPath, none⟩)],
      watchIds := st.watchIds ++ [uniqueId],
      signals := st.signals ++ [uniqueId] }

/-! ### OrderingCoordinator: `StatusTrayExtension._reorderItems`
(extension.js:2175-2224)

The JS comparator returns `aIndex - bIndex` when both appIds occur in
`app-order`, puts present before absent, and returns 0 for two absent
appIds; `Array.prototype.sort` is stable, so the comparator is equivalent
to a stable sort by the key `indexOf appId` with absent mapped to
`appOrder.length`. -/

/-- Comparator key of the `entries.sort` call (extension.js:2188-2195):
index in `app-order`, with absent appIds past every present one. -/
def orderKey (appOrder : List String) (appId : String) : Nat :=
  match appOrder with
  | [] => 0
  | x :: rest => if x = appId then 0 else orderKey rest appId + 1

/-- Key of one `entries` element `(uniqueId, appId)`. -/
def entryKey (appOrder : List String) (e : String × String) : Nat :=
  orderKey appOrder e.2

/-- Stable insertion: the new element goes after every element whose key is
less than or equal to its own. -/
def insertStable {α : Type} (key : α → Nat) (x : α) : List α → List α
  | [] => [x]
  | y :: ys => if key x < key y then x :: y :: ys else y :: insertStable key x ys

/-- Stable sort by a natural-number key (the unique stable sort an ES2019
`Array.prototype.sort` must compute for a consistent comparator). -/
def stableSortSpec {α : Type} (key : α → Nat) (l : List α) : List α :=
  l.foldl (fun acc x => insertStable key x acc) []

/-- The sorted `entries` list of `_reorderItems` over `(uniqueId, appId)`
pairs (extension.js:2183-2195). -/
def reorderEntries (items : List (String × String)) (appOrder : List String) :
    List (String × String) :=
  stableSortSpec (entryKey appOrder) items

/-- `StatusTrayExtension._reorderItems` (extension.js:2175-2224): sort the
live items, skip all side effects when the resulting uniqueId order equals
the current one (second component `false`), otherwise reposition and
rebuild the map in the new order (`true`). -/
def reorderItems (items : List (String × String)) (appOrder : List String) :
    List (String × String) × Bool :=
  let entries := reorderEntries items appOrder
  if items.map Prod.fst = entries.map Prod.fst then (items, false)
  else (entries, true)

/-! ### MenuClient: `_buildMenuFromLayout`, `_addMenuItem`,
`_addSubMenuItem` (extension.js:1264-1377) -/

/-- `stripMnemonics` pass 1 (extension.js:222-225): `replace(/__/g,'\x00')`,
left-to-right non-overlapping. -/
def mnPairPass : List Char → List Char
  | '_' :: '_' :: rest => '\x00' :: mnPairPass rest
  | c :: rest => c :: mnPairPass rest
  | [] => []

/-- `stripMnemonics` (extension.js:222-225): `__` becomes a placeholder,
single `_` is dropped, the placeholder becomes `_`. -/
def stripMnemonics (label : String) : String :=
  String.mk
    (((mnPairPass label.data).filter (fun c => c != '_')).map
      (fun c => if c = '\x00' then '_' else c))

mutual
/-- A dbusmenu layout node: `(id, properties, children)`, with the
properties `_addMenuItem` reads (absent = `undefined`). -/
inductive RawNode where
  | node (id : Int) (label : Option String) (visible : Option Bool)
      (enabled : Option Bool) (ty : Option String)
      (childrenDisplay : Option String) (children : RawForest)

/-- A list of layout nodes (mutually inductive so structural recursion over
the tree is available). -/
inductive RawForest where
  | nil
  | cons (head : RawNode) (tail : RawForest)
end

/-- Whether a forest is empty (models `children.length > 0` checks). -/
def RawForest.isNil : RawForest → Bool
  | .nil => true
  | .cons _ _ => false

/-- One rendered popup-menu entry. -/
inductive MenuEntry where
  | separator
  | item (label : String) (enabled : Bool) (id : Int)
  | submenu (label : String) (enabled : Bool) (entries : List MenuEntry)

/-- `TrayItem._addSubMenuItem` (extension.js:1351-1377): invisible nodes
are dropped; separator-typed or empty-label nodes append a separator with
no collapsing; other nodes append an item; children are ignored. -/
def addSubMenuItem (acc : List MenuEntry) (n : RawNode) : List MenuEntry :=
  match n with
  | .node id lbl vis en ty _ _ =>
    let label := stripMnemonics (lbl.getD "")
    let visible := vis.getD true
    let enabled := en.getD true
    let tys := ty.getD ""
    if visible = false then acc
    else if tys = "separator" ∨ label = "" then acc ++ [.separator]
    else acc ++ [.item label enabled id]

/-- Fold `_addSubMenuItem` over a submenu's children. -/
def addSubMenuItems (acc : List MenuEntry) : RawForest → List MenuEntry
  | .nil => acc
  | .cons h t => addSubMenuItems (addSubMenuItem acc h) t

mutual
/-- `TrayItem._addMenuItem` (extension.js:1280-1349) acting on the state
`(menu entries so far, _lastMenuItemType)`: invisible nodes are skipped; an
empty-label id-0 node is unwrapped into its children; separator-typed or
empty-label nodes collapse against a preceding separator; submenu-displayed
nodes with children render a collapsed submenu; other nodes render an item
and then inline their children. -/
def addMenuItem (st : List MenuEntry × Option String) (n : RawNode) :
    List MenuEntry × Option String :=
  match n with
  | .node id lbl vis en ty cd children =>
    let label := stripMnemonics (lbl.getD "")
    let visible := vis.getD true
    let enabled := en.getD true
    let tys := ty.getD ""
    let cds := cd.getD ""
    if visible = false then st
    else if label = "" ∧ id = 0 then addMenuItems st children
    else if tys = "separator" ∨ label = "" then
      if st.2 = some "separator" then st
      else (st.1 ++ [.separator], some "separator")
    else if cds = "submenu" ∧ children.isNil = false then
      (st.1 ++ [.submenu label enabled (addSubMenuItems [] children)],
       some "submenu")
    else
      addMenuItems (st.1 ++ [.item label enabled id], some "item") children

/-- The `for (const childVariant of children)` loops of
`_buildMenuFromLayout` and `_addMenuItem`. -/
def addMenuItems (st : List MenuEntry × Option String) :
    RawForest → List MenuEntry × Option String
  | .nil => st
  | .cons h t => addMenuItems (addMenuItem st h) t
end

/-- `TrayItem._buildMenuFromLayout` (extension.js:1264-1278): the menu was
cleared, `_lastMenuItemType` reset to null, then every root child is added. -/
def buildMenu (children : RawForest) : List MenuEntry :=
  (addMenuItems ([], none) children).1

/-- Whether an entry is a separator. -/
def isSepEntry : MenuEntry → Bool
  | .separator => true
  | _ => false

/-- Whether a rendered entry list contains two adjacent separators. -/
def hasAdjacentSeparator : List MenuEntry → Bool
  | [] => false
  | a :: rest =>
    match rest with
    | [] => false
    | b :: _ => (isSepEntry a && isSepEntry b) || hasAdjacentSeparator rest

/-- Whether a rendered entry list ends with a separator. -/
def endsWithSep : List MenuEntry → Bool
  | [] => false
  | a :: rest => if rest.isEmpty then isSepEntry a else endsWithSep rest

/-! ### Theme-inheritance chain: `_resolveThemeChain`
(extension.js:41-80)

The icon-directory contents are modelled as a finite table mapping a theme
name to the parsed `Inherits=` parents of the first `index.theme` found for
it across the icon directories (the filesystem holds finitely many themes;
a name without an `index.theme` has no entry and contributes no parents). -/

/-- Parents of a theme name per the directory table, if it has an index. -/
def lookupTheme (themes : List (String × List String)) (name : String) :
    Option (List String) :=
  match themes.find? (fun p => p.1 == name) with
  | some p => some p.2
  | none => none

/-- Every theme name occurring in the table (keys and parents). -/
def themeUniverse (themes : List (String × List String)) : List String :=
  themes.flatMap (fun p => p.1 :: p.2)

/-- Bound on the number of parents any single lookup can push. -/
def parentBound (themes : List (String × List String)) : Nat :=
  (themes.flatMap Prod.snd).length + 1

theorem lookupTheme_mem_universe {themes : List (String × List String)}
    {name : String} {ps : List String}
    (h : lookupTheme themes name = some ps) : name ∈ themeUniverse themes := by
  unfold lookupTheme at h
  cases hf : themes.find? (fun p => p.1 == name) with
  | none => rw [hf] at h; exact absurd h (by simp)
  | some p =>
    rw [hf] at h
    have hmem := List.mem_of_find?_eq_some hf
    have hkey : p.1 = name := by
      have := List.find?_some hf
      simpa using this
    subst hkey
    unfold themeUniverse
    exact List.mem_flatMap.mpr ⟨p, hmem, by simp⟩

theorem snd_length_le_flatMap {p : String × List String}
    {themes : List (String × List String)} (hmem : p ∈ themes) :
    p.2.length ≤ (themes.flatMap Prod.snd).length := by
  induction themes with
  | nil => simp at hmem
  | cons q qs ih =>
    rcases List.mem_cons.mp hmem with h1 | h2
    · subst h1
      simp only [List.flatMap_cons, List.length_append]
      omega
    · have := ih h2
      simp only [List.flatMap_cons, List.length_append]
      omega

theorem lookupTheme_parents_length {themes : List (String × List String)}
    {name : String} {ps : List String}
    (h : lookupTheme themes name = some ps) :
    ps.length < parentBound themes := by
  unfold lookupTheme at h
  cases hf : themes.find? (fun p => p.1 == name) with
  | none => rw [hf] at h; exact absurd h (by simp)
  | some p =>
    rw [hf] at h
    have hps : p.2 = ps := by simpa using h
    have hmem := List.mem_of_find?_eq_some hf
    unfold parentBound
    have hsub := snd_length_le_flatMap hmem
    rw [hps] at hsub
    omega

theorem lookupTheme_none_of_not_mem {themes : List (String × List String)}
    {name : String} (h : name ∉ themeUniverse themes) :
    lookupTheme themes name = none := by
  cases hl : lookupTheme themes name with
  | none => rfl
  | some ps => exact absurd (lookupTheme_mem_universe hl) h

/-- `_resolveThemeChain`'s BFS loop (extension.js:46-74): pop a name, skip
it if visited, otherwise visit it (append to the chain) and enqueue its
not-yet-visited parents.  Returns the visited set and the chain. -/
def resolveGo (themes : List (String × List String)) :
    List String → List String → List String → List String × List String
  | [], visited, chain => (visited, chain)
  | name :: rest, visited, chain =>
    if name ∈ visited then resolveGo themes rest visited chain
    else
      resolveGo themes
        (rest ++ ((lookupTheme themes name).getD []).filter
          (fun p => decide (p ∉ name :: visited)))
        (name :: visited) (chain ++ [name])
termination_by queue visited _ =>
  queue.length +
    ((themeUniverse themes).toFinset \ visited.toFinset).card *
      parentBound themes
decreasing_by
  · simp only [List.length_cons]
    omega
  · rename_i hnv
    by_cases hu : name ∈ (themeUniverse themes).toFinset
    · have hcard :
        (((themeUniverse themes).toFinset \ (name :: visited).toFinset).card) <
          ((themeUniverse themes).toFinset \ visited.toFinset).card := by
        apply Finset.card_lt_card
        have hsub : ((themeUniverse themes).toFinset \ (name :: visited).toFinset) ⊆
            ((themeUniverse themes).toFinset \ visited.toFinset) := by
          apply Finset.sdiff_subset_sdiff (le_refl _)
          intro x hx
          simp only [List.toFinset_cons, Finset.mem_insert]
          exact Or.inr hx
        rw [Finset.ssubset_iff_of_subset hsub]
        refine ⟨name, ?_, ?_⟩
        · simp only [Finset.mem_sdiff, List.mem_toFinset]
          exact ⟨List.mem_toFinset.mp hu, hnv⟩
        · intro hmem
          have h2 := (Finset.mem_sdiff.mp hmem).2
          apply h2
          simp [List.toFinset_cons]
      have hpush :
          (((lookupTheme themes name).getD []).filter
            (fun p => decide (p ∉ name :: visited))).length <
            parentBound themes := by
        cases hl : lookupTheme themes name with
        | none => simp [parentBound]
        | some ps =>
          simp only [Option.getD_some]
          exact lt_of_le_of_lt (List.length_filter_le _ _)
            (lookupTheme_parents_length hl)
      have hmul :
          (((themeUniverse themes).toFinset \ (name :: visited).toFinset).card)
              * parentBound themes + parentBound themes ≤
            ((themeUniverse themes).toFinset \ visited.toFinset).card *
              parentBound themes := by
        have := Nat.succ_le_of_lt hcard
        calc (((themeUniverse themes).toFinset \ (name :: visited).toFinset).card)
              * parentBound themes + parentBound themes
            = ((((themeUniverse themes).toFinset \ (name :: visited).toFinset).card) + 1)
              * parentBound themes := by ring
          _ ≤ ((themeUniverse themes).toFinset \ visited.toFinset).card *
              parentBound themes := Nat.mul_le_mul_right _ this
      simp only [List.length_append, List.length_cons]
      omega
    · have hl : lookupTheme themes name = none :=
        lookupTheme_none_of_not_mem (by simpa using hu)
      have hset :
          ((themeUniverse themes).toFinset \ (name :: visited).toFinset) =
            ((themeUniverse themes).toFinset \ visited.toFinset) := by
        ext x
        simp only [Finset.mem_sdiff, List.toFinset_cons, Finset.mem_insert,
          List.mem_toFinset]
        constructor
        · rintro ⟨hx1, hx2⟩
          exact ⟨hx1, fun hx3 => hx2 (Or.inr hx3)⟩
        · rintro ⟨hx1, hx2⟩
          refine ⟨hx1, ?_⟩
          rintro (rfl | hx3)
          · exact absurd (List.mem_toFinset.mpr hx1) hu
          · exact hx2 hx3
      simp only [hl, Option.getD_none, List.filter_nil, List.length_append,
        List.length_nil, List.length_cons, hset]
      omega

/-- `_resolveThemeChain` (extension.js:41-80): run the BFS from the start
theme, then append `hicolor` unless it was visited. -/
def resolveThemeChain (themes : List (String × List String))
    (themeName : String) : List String :=
  let r := resolveGo themes [themeName] [] []
  if "hicolor" ∈ r.1 then r.2 else r.2 ++ ["hicolor"]

/-! ## Proofs -/

/-! ### C7: `_argbToRgba` -/

/-- The 4-byte output block for pixel `i`. -/
def pixelAt (argb : List Nat) (i : Nat) : List Nat :=
  [nthD argb (4 * i + 1) 0, nthD argb (4 * i + 2) 0,
   nthD argb (4 * i + 3) 0, nthD argb (4 * i) 0]

theorem argbToRgba_eq_flatMap (argb : List Nat) (w h : Nat) :
    argbToRgba argb w h = (List.range (w * h)).flatMap (pixelAt argb) := rfl

theorem drop_four {α : Type} (a b c d : α) (l : List α) (k : Nat) :
    (a :: b :: c :: d :: l).drop (k + 4) = l.drop k := rfl

theorem flatMap_pixel_length (argb : List Nat) :
    ∀ (n s : Nat), ((List.range' s n).flatMap (pixelAt argb)).length = 4 * n := by
  intro n
  induction n with
  | zero => intro s; rfl
  | succ m ih =>
    intro s
    rw [List.range'_succ, List.flatMap_cons, List.length_append, ih]
    simp only [pixelAt, List.length_cons, List.length_nil]
    ring

theorem flatMap_pixel_drop (argb : List Nat) :
    ∀ (i n s : Nat), i ≤ n →
      ((List.range' s n).flatMap (pixelAt argb)).drop (4 * i) =
        (List.range' (s + i) (n - i)).flatMap (pixelAt argb) := by
  intro i
  induction i with
  | zero => intro n s _; simp
  | succ j ih =>
    intro n s hij
    match n, hij with
    | m + 1, hij =>
      have hjm : j ≤ m := Nat.succ_le_succ_iff.mp hij
      have h1 : s + 1 + j = s + (j + 1) := by ring
      have h2 : m - j = m + 1 - (j + 1) := by omega
      rw [List.range'_succ, List.flatMap_cons,
        show 4 * (j + 1) = 4 * j + 4 from by ring,
        show pixelAt argb s ++ (List.range' (s + 1) m).flatMap (pixelAt argb) =
          nthD argb (4 * s + 1) 0 :: nthD argb (4 * s + 2) 0 ::
          nthD argb (4 * s + 3) 0 :: nthD argb (4 * s) 0 ::
          (List.range' (s + 1) m).flatMap (pixelAt argb) from rfl,
        drop_four, ih m (s + 1) hjm, h1, h2]

theorem nthD_drop {α : Type} (d : α) :
    ∀ (m : Nat) (l : List α) (k : Nat), nthD l (m + k) d = nthD (l.drop m) k d := by
  intro m
  induction m with
  | zero => intro l k; simp
  | succ j ih =>
    intro l k
    cases l with
    | nil => simp [nthD]
    | cons x t =>
      rw [show j + 1 + k = (j + k) + 1 from by ring, List.drop_succ_cons]
      show nthD t (j + k) d = _
      exact ih t k

/-- Claim C7: `argbToRgba` maps every input pixel `[A,R,G,B]` (4 bytes) to
the output pixel `[R,G,B,A]` at the same pixel index, by a linear scan over
`width*height*4` contiguous bytes, so an input of N pixels yields an output
of exactly N pixels. -/
theorem argbToRgba_spec (argb : List Nat) (w h i A R G B : Nat)
    (hi : i < w * h) (hlen : argb.length = w * h * 4)
    (hpix : (argb.drop (4 * i)).take 4 = [A, R, G, B]) :
    ((argbToRgba argb w h).drop (4 * i)).take 4 = [R, G, B, A] ∧
    (argbToRgba argb w h).length = argb.length := by
  have hsplit := List.take_append_drop 4 (argb.drop (4 * i))
  rw [hpix] at hsplit
  have hdrop : argb.drop (4 * i) =
      A :: R :: G :: B :: (argb.drop (4 * i)).drop 4 := by
    simpa using hsplit.symm
  constructor
  · rw [argbToRgba_eq_flatMap, List.range_eq_range',
      flatMap_pixel_drop argb i (w * h) 0 (le_of_lt hi)]
    have hk : w * h - i = (w * h - i - 1) + 1 := by omega
    rw [Nat.zero_add, hk, List.range'_succ, List.flatMap_cons]
    have e1 : nthD argb (4 * i + 1) 0 = R := by
      rw [nthD_drop 0 (4 * i) argb 1, hdrop]; rfl
    have e2 : nthD argb (4 * i + 2) 0 = G := by
      rw [nthD_drop 0 (4 * i) argb 2, hdrop]; rfl
    have e3 : nthD argb (4 * i + 3) 0 = B := by
      rw [nthD_drop 0 (4 * i) argb 3, hdrop]; rfl
    have e0 : nthD argb (4 * i) 0 = A := by
      rw [show 4 * i = 4 * i + 0 from by omega, nthD_drop 0 (4 * i) argb 0, hdrop]
      rfl
    have hpx : pixelAt argb i = [R, G, B, A] := by
      rw [pixelAt, e0, e1, e2, e3]
    rw [hpx]
    rfl
  · rw [argbToRgba_eq_flatMap, List.range_eq_range', flatMap_pixel_length, hlen]
    ring

theorem argbToRgba_spec_witness :
    (1 < 2 * 1) ∧ ([1, 2, 3, 4, 9, 8, 7, 6] : List Nat).length = 2 * 1 * 4 ∧
    (([1, 2, 3, 4, 9, 8, 7, 6] : List Nat).drop (4 * 1)).take 4 = [9, 8, 7, 6] ∧
    (((argbToRgba [1, 2, 3, 4, 9, 8, 7, 6] 2 1).drop (4 * 1)).take 4 =
        [8, 7, 6, 9] ∧
      (argbToRgba [1, 2, 3, 4, 9, 8, 7, 6] 2 1).length =
        ([1, 2, 3, 4, 9, 8, 7, 6] : List Nat).length) :=
  ⟨by decide, by decide, by decide,
    argbToRgba_spec [1, 2, 3, 4, 9, 8, 7, 6] 2 1 1 9 8 7 6 (by decide) (by decide)
      (by decide)⟩

/-! ### C3: best-size selection -/

/-- The fold underlying `selectBestSize`. -/
def selectFold (t b : Nat) (l : List Nat) : Nat :=
  l.foldl (fun best w => selectStep t best w) b

theorem selectBestSize_eq_fold (cands : List Nat) (t first : Nat)
    (rest : List Nat) (hc : cands = first :: rest) :
    selectBestSize cands t = some (selectFold t first cands) := by
  subst hc; rfl

/-- Full characterisation of the best-size fold: the result is the seed or
a list element; its distance to the target never exceeds the seed's; a
changed result is in range and strictly closer than the seed; no in-range
element is strictly closer; and an in-range element at the same distance
occurs no earlier than the result. -/
theorem selectFold_spec (t : Nat) (l : List Nat) (b : Nat) :
    (selectFold t b l = b ∨ selectFold t b l ∈ l) ∧
    natDist (selectFold t b l) t ≤ natDist b t ∧
    (selectFold t b l ≠ b →
      inSizeRange (selectFold t b l) = true ∧
      natDist (selectFold t b l) t < natDist b t) ∧
    (∀ w ∈ l, inSizeRange w = true → natDist (selectFold t b l) t ≤ natDist w t) ∧
    (∀ w ∈ l, inSizeRange w = true → natDist w t = natDist (selectFold t b l) t →
      selectFold t b l = b ∨
      ∃ l₁ l₂, l = l₁ ++ selectFold t b l :: l₂ ∧
        selectFold t b l ∉ l₁ ∧ w ∉ l₁) := by
  induction l generalizing b with
  | nil =>
    refine ⟨Or.inl rfl, le_refl _, fun hne => absurd rfl hne, ?_, ?_⟩
    · intro w hw; simp at hw
    · intro w hw; simp at hw
  | cons x xs ih =>
    have hstep : selectFold t b (x :: xs) = selectFold t (selectStep t b x) xs := rfl
    by_cases hx : inSizeRange x = true ∧ natDist x t < natDist b t
    · have hbx : selectStep t b x = x := by rw [selectStep, if_pos hx]
      rw [hstep, hbx]
      obtain ⟨ih1, ih2, ih3, ih4, ih5⟩ := ih x
      refine ⟨?_, ?_, ?_, ?_, ?_⟩
      · rcases ih1 with h | h
        · exact Or.inr (by rw [h]; exact List.mem_cons_self x xs)
        · exact Or.inr (List.mem_cons_of_mem x h)
      · exact le_of_lt (lt_of_le_of_lt ih2 hx.2)
      · intro _
        rcases eq_or_ne (selectFold t x xs) x with he | he
        · rw [he]; exact ⟨hx.1, hx.2⟩
        · obtain ⟨hr1, hr2⟩ := ih3 he
          exact ⟨hr1, lt_trans hr2 hx.2⟩
      · intro w hw hwr
        rcases List.mem_cons.mp hw with rfl | hwxs
        · exact ih2
        · exact ih4 w hwxs hwr
      · intro w hw hwr hdist
        rcases eq_or_ne (selectFold t x xs) x with he | he
        · refine Or.inr ⟨[], xs, ?_, by simp, by simp⟩
          rw [he]
          rfl
        · obtain ⟨hr1, hr2⟩ := ih3 he
          rcases List.mem_cons.mp hw with rfl | hwxs
          · exact absurd hdist (by omega)
          · rcases ih5 w hwxs hwr hdist with h | ⟨l₁, l₂, hsp, hnr, hnw⟩
            · exact absurd h he
            · have hwx : w ≠ x := by
                intro hwx
                rw [hwx] at hdist
                omega
              refine Or.inr ⟨x :: l₁, l₂, ?_, ?_, ?_⟩
              · show x :: xs = x :: (l₁ ++ selectFold t x xs :: l₂)
                rw [← hsp]
              · simp only [List.mem_cons, not_or]
                exact ⟨he, hnr⟩
              · simp only [List.mem_cons, not_or]
                exact ⟨hwx, hnw⟩
    · have hbx : selectStep t b x = b := by rw [selectStep, if_neg hx]
      rw [hstep, hbx]
      obtain ⟨ih1, ih2, ih3, ih4, ih5⟩ := ih b
      refine ⟨?_, ih2, ih3, ?_, ?_⟩
      · rcases ih1 with h | h
        · exact Or.inl h
        · exact Or.inr (List.mem_cons_of_mem x h)
      · intro w hw hwr
        rcases List.mem_cons.mp hw with rfl | hwxs
        · have hge : natDist b t ≤ natDist w t := by
            by_contra hcon
            exact hx ⟨hwr, by omega⟩
          exact le_trans ih2 hge
        · exact ih4 w hwxs hwr
      · intro w hw hwr hdist
        rcases List.mem_cons.mp hw with rfl | hwxs
        · have hge : natDist b t ≤ natDist w t := by
            by_contra hcon
            exact hx ⟨hwr, by omega⟩
          rcases eq_or_ne (selectFold t b xs) b with he | he
          · exact Or.inl he
          · obtain ⟨_, hr2⟩ := ih3 he
            omega
        · rcases ih5 w hwxs hwr hdist with h | ⟨l₁, l₂, hsp, hnr, hnw⟩
          · exact Or.inl h
          · rcases eq_or_ne (selectFold t b xs) b with he | he
            · exact Or.inl he
            · obtain ⟨hr1, hr2⟩ := ih3 he
              have hrx : selectFold t b xs ≠ x := by
                intro hrx
                rw [hrx] at hr1 hr2
                exact hx ⟨hr1, hr2⟩
              have hwx : w ≠ x := by
                intro hwx
                rw [hwx] at hdist hwr
                exact hx ⟨hwr, by omega⟩
              refine Or.inr ⟨x :: l₁, l₂, ?_, ?_, ?_⟩
              · show x :: xs = x :: (l₁ ++ selectFold t b xs :: l₂)
                rw [← hsp]
              · simp only [List.mem_cons, not_or]
                exact ⟨hrx, hnr⟩
              · simp only [List.mem_cons, not_or]
                exact ⟨hwx, hnw⟩

theorem firstIdx_append_cons {α : Type} [DecidableEq α] (x : α)
    (l₁ l₂ : List α) (h : x ∉ l₁) : firstIdx x (l₁ ++ x :: l₂) = l₁.length := by
  induction l₁ with
  | nil => simp [firstIdx]
  | cons y ys ih =>
    have hyx : y ≠ x := fun he => h (by rw [he]; exact List.mem_cons_self x ys)
    show (if y = x then 0 else firstIdx x (ys ++ x :: l₂) + 1) = ys.length + 1
    rw [if_neg hyx, ih fun hm => h (List.mem_cons_of_mem y hm)]

theorem firstIdx_append_ge {α : Type} [DecidableEq α] (w : α)
    (l₁ l₂ : List α) (h : w ∉ l₁) : l₁.length ≤ firstIdx w (l₁ ++ l₂) := by
  induction l₁ with
  | nil => simp
  | cons y ys ih =>
    have hyw : y ≠ w := fun he => h (by rw [he]; exact List.mem_cons_self w ys)
    show ys.length + 1 ≤ (if y = w then 0 else firstIdx w (ys ++ l₂) + 1)
    rw [if_neg hyw]
    exact Nat.succ_le_succ (ih fun hm => h (List.mem_cons_of_mem y hm))

/-- Claim C3 (amended): for every non-empty candidate list and target, the
selection seeds its incumbent with the first candidate whether or not that
candidate lies in [16,48], and an in-range candidate replaces the incumbent
only when strictly closer to the target; hence the result is a candidate
whose distance to the target is at most that of every in-range candidate,
an out-of-range result is always the first candidate (in particular when no
candidate is in range), ties keep the earliest-seen candidate, and
`selectBestSize [16,22,32,48] 24 = 22`, `selectBestSize [8,64] 24 = 8`. -/
theorem selectBestSize_spec (cands : List Nat) (target first : Nat)
    (rest : List Nat) (hc : cands = first :: rest) :
    selectBestSize cands target = some (selectFold target first cands) ∧
    selectFold target first cands ∈ cands ∧
    (∀ w ∈ cands, inSizeRange w = true →
      natDist (selectFold target first cands) target ≤ natDist w target) ∧
    (inSizeRange (selectFold target first cands) = false →
      selectFold target first cands = first) ∧
    (∀ w ∈ cands, inSizeRange w = true →
      natDist w target = natDist (selectFold target first cands) target →
      firstIdx (selectFold target first cands) cands ≤ firstIdx w cands) ∧
    selectBestSize [16, 22, 32, 48] 24 = some 22 ∧
    selectBestSize [8, 64] 24 = some 8 := by
  subst hc
  obtain ⟨h1, h2, h3, h4, h5⟩ := selectFold_spec target (first :: rest) first
  refine ⟨rfl, ?_⟩
  revert h1 h2 h3 h4 h5
  generalize selectFold target first (first :: rest) = r
  intro h1 h2 h3 h4 h5
  refine ⟨?_, h4, ?_, ?_, by decide, by decide⟩
  · rcases h1 with h | h
    · rw [h]; exact List.mem_cons_self first rest
    · exact h
  · intro hout
    by_contra hne
    exact absurd (h3 hne).1 (by rw [hout]; exact Bool.false_ne_true)
  · intro w hw hwr hdist
    rcases h5 w hw hwr hdist with he | ⟨l₁, l₂, hsp, hnr, hnw⟩
    · rw [he]
      simp [firstIdx]
    · have e1 : firstIdx r (first :: rest) = l₁.length := by
        rw [hsp]; exact firstIdx_append_cons r l₁ l₂ hnr
      have e2 : l₁.length ≤ firstIdx w (first :: rest) := by
        rw [hsp]; exact firstIdx_append_ge w l₁ (r :: l₂) hnw
      omega

theorem selectBestSize_spec_witness :
    ([16, 22, 32, 48] : List Nat) = 16 :: [22, 32, 48] ∧
    (selectBestSize [16, 22, 32, 48] 24 =
        some (selectFold 24 16 [16, 22, 32, 48]) ∧
      selectFold 24 16 [16, 22, 32, 48] ∈ ([16, 22, 32, 48] : List Nat) ∧
      (∀ w ∈ ([16, 22, 32, 48] : List Nat), inSizeRange w = true →
        natDist (selectFold 24 16 [16, 22, 32, 48]) 24 ≤ natDist w 24) ∧
      (inSizeRange (selectFold 24 16 [16, 22, 32, 48]) = false →
        selectFold 24 16 [16, 22, 32, 48] = 16) ∧
      (∀ w ∈ ([16, 22, 32, 48] : List Nat), inSizeRange w = true →
        natDist w 24 = natDist (selectFold 24 16 [16, 22, 32, 48]) 24 →
        firstIdx (selectFold 24 16 [16, 22, 32, 48]) [16, 22, 32, 48] ≤
          firstIdx w [16, 22, 32, 48]) ∧
      selectBestSize [16, 22, 32, 48] 24 = some 22 ∧
      selectBestSize [8, 64] 24 = some 8) :=
  ⟨by decide, selectBestSize_spec [16, 22, 32, 48] 24 16 [22, 32, 48] rfl⟩

/-- Claim C3 counterexample: with candidates `[15, 48]` and target 24 the
code returns 15, which is not in `[16,48]`, even though the in-range
candidate 48 exists — the claim demands the in-range minimizer 48. -/
theorem selectBestSize_cex :
    selectBestSize [15, 48] 24 = some 15 ∧
    selectBestSize [15, 48] 24 ≠ some 48 ∧
    inSizeRange 15 = false ∧ inSizeRange 48 = true := by decide

/-! ### C6: best-size selection across call sites -/

/-- Claim C6 (amended): the live panel (targetPx 22) and the preferences
row preview (targetPx 24) apply the identical best-size algorithm,
differing only in the targetPx value; the effect-editing preview
(targetPx 64) applies a different algorithm that omits the [16,48] range
filter, as `[8,64]` at target 64 shows. -/
theorem selectBestSize_callsites_spec :
    (∀ (cands : List Nat) (target : Nat),
      selectBestSize cands target = prefsSelectBestSize cands target) ∧
    dialogSelectBestSize [8, 64] 64 = some 64 ∧
    selectBestSize [8, 64] 64 = some 8 :=
  ⟨fun _ _ => rfl, by decide, by decide⟩

/-- Claim C6 counterexample: on the candidate list `[8,64]` at the effect
dialog's own target 64, the dialog's selection differs from the
panel/row selection, so the three call sites do not compute the same
function. -/
theorem selectBestSize_callsites_cex :
    dialogSelectBestSize [8, 64] 64 ≠ selectBestSize [8, 64] 64 := by decide

/-! ### C2: registry registration dedup -/

/-- `n`-fold repetition of `_registerItemInternal` with one (bus name,
object path) pair. -/
def regIter (st : RegState) (busName objectPath : String) (n : Nat) :
    RegState :=
  (fun s => registerItemInternal s busName objectPath)^[n] st

/-- Claim C2: registering the same `(busIdentity, objectPath)` pair any
number `n ≥ 1` of times from a state not yet tracking it leaves exactly one
tracked entry for its uniqueId and exactly one `ItemRegistered` emission,
and a further registration while tracked is a silent no-op. -/
theorem registerItemInternal_dedup (st : RegState) (busName objectPath : String)
    (n : Nat) (hn : 1 ≤ n)
    (hfresh : st.items.countP (fun p => p.1 == busName ++ objectPath) = 0)
    (hsig : st.signals.count (busName ++ objectPath) = 0) :
    registerItemInternal (regIter st busName objectPath n) busName objectPath =
      regIter st busName objectPath n ∧
    (regIter st busName objectPath n).items.countP
        (fun p => p.1 == busName ++ objectPath) = 1 ∧
    (regIter st busName objectPath n).signals.count (busName ++ objectPath) = 1 := by
  have hany : st.items.any (fun p => p.1 == busName ++ objectPath) = false := by
    by_contra hcon
    have htrue : st.items.any (fun p => p.1 == busName ++ objectPath) = true := by
      cases hb : st.items.any (fun p => p.1 == busName ++ objectPath)
      · exact absurd hb hcon
      · rfl
    obtain ⟨a, ha, hpa⟩ := List.any_eq_true.mp htrue
    have hpos : 0 < st.items.countP (fun p => p.1 == busName ++ objectPath) :=
      List.countP_pos_iff.mpr ⟨a, ha, hpa⟩
    omega
  have hstep : registerItemInternal st busName objectPath =
      { items := st.items ++ [(busName ++ objectPath, ⟨busName, objectPath, none⟩)],
        watchIds := st.watchIds ++ [busName ++ objectPath],
        signals := st.signals ++ [busName ++ objectPath] } := by
    rw [registerItemInternal]
    simp only [hany]
    rfl
  have hfix : registerItemInternal (registerItemInternal st busName objectPath)
      busName objectPath = registerItemInternal st busName objectPath := by
    rw [hstep, registerItemInternal]
    have hmem : ((st.items ++
        [(busName ++ objectPath, ItemInfo.mk busName objectPath none)]).any
          (fun p => p.1 == busName ++ objectPath)) = true := by
      apply List.any_eq_true.mpr
      exact ⟨(busName ++ objectPath, ⟨busName, objectPath, none⟩),
        List.mem_append_right _ (List.mem_singleton.mpr rfl), by simp⟩
    simp only [hmem]
    rfl
  have hiter : ∀ m, regIter st busName objectPath (m + 1) =
      registerItemInternal st busName objectPath := by
    intro m
    rw [regIter, Function.iterate_succ_apply]
    exact Function.iterate_fixed hfix m
  obtain ⟨m, rfl⟩ : ∃ m, n = m + 1 := ⟨n - 1, by omega⟩
  rw [hiter m]
  refine ⟨hfix, ?_, ?_⟩
  · rw [hstep]
    simp only [List.countP_append, hfresh]
    simp [List.countP_cons]
  · rw [hstep]
    simp only [List.count_append, hsig]
    simp [List.count_cons]

theorem registerItemInternal_dedup_witness :
    (1 ≤ 3) ∧
    (RegState.mk [] [] []).items.countP (fun p => p.1 == ":1.40" ++ "/SNI") = 0 ∧
    (RegState.mk [] [] []).signals.count (":1.40" ++ "/SNI") = 0 ∧
    (registerItemInternal (regIter ⟨[], [], []⟩ ":1.40" "/SNI" 3) ":1.40" "/SNI" =
        regIter ⟨[], [], []⟩ ":1.40" "/SNI" 3 ∧
      (regIter ⟨[], [], []⟩ ":1.40" "/SNI" 3).items.countP
          (fun p => p.1 == ":1.40" ++ "/SNI") = 1 ∧
      (regIter ⟨[], [], []⟩ ":1.40" "/SNI" 3).signals.count
          (":1.40" ++ "/SNI") = 1) :=
  ⟨by decide, by decide, by decide,
    registerItemInternal_dedup ⟨[], [], []⟩ ":1.40" "/SNI" 3 (by decide)
      (by decide) (by decide)⟩

/-! ### C4 and C8: stable reorder -/

theorem insertStable_perm {α : Type} (key : α → Nat) (x : α) (l : List α) :
    List.Perm (insertStable key x l) (x :: l) := by
  induction l with
  | nil => exact List.Perm.refl _
  | cons y ys ih =>
    by_cases h : key x < key y
    · rw [insertStable, if_pos h]
    · rw [insertStable, if_neg h]
      exact (List.Perm.cons y ih).trans (List.Perm.swap x y ys)

theorem mem_insertStable {α : Type} (key : α → Nat) (x a : α) (l : List α) :
    a ∈ insertStable key x l ↔ a = x ∨ a ∈ l := by
  rw [(insertStable_perm key x l).mem_iff, List.mem_cons]

theorem insertStable_pairwise {α : Type} (key : α → Nat) (x : α) (l : List α)
    (h : List.Pairwise (fun a b => key a ≤ key b) l) :
    List.Pairwise (fun a b => key a ≤ key b) (insertStable key x l) := by
  induction l with
  | nil => simp [insertStable]
  | cons y ys ih =>
    obtain ⟨hy, hys⟩ := List.pairwise_cons.mp h
    by_cases hlt : key x < key y
    · rw [insertStable, if_pos hlt]
      refine List.pairwise_cons.mpr ⟨?_, h⟩
      intro b hb
      rcases List.mem_cons.mp hb with rfl | hbys
      · exact le_of_lt hlt
      · exact le_trans (le_of_lt hlt) (hy b hbys)
    · rw [insertStable, if_neg hlt]
      refine List.pairwise_cons.mpr ⟨?_, ih hys⟩
      intro b hb
      rcases (mem_insertStable key x b ys).mp hb with rfl | hbys
      · omega
      · exact hy b hbys

theorem insertStable_filter_of_ne {α : Type} (key : α → Nat) (x : α)
    (l : List α) (k : Nat) (hk : ¬ key x = k) :
    (insertStable key x l).filter (fun e => key e == k) =
      l.filter (fun e => key e == k) := by
  induction l with
  | nil => simp [insertStable, List.filter_cons, hk]
  | cons y ys ih =>
    by_cases hlt : key x < key y
    · rw [insertStable, if_pos hlt, List.filter_cons, List.filter_cons]
      simp [hk]
    · rw [insertStable, if_neg hlt, List.filter_cons, List.filter_cons, ih]

theorem insertStable_filter_of_eq {α : Type} (key : α → Nat) (x : α)
    (l : List α) (k : Nat) (hk : key x = k)
    (hsort : List.Pairwise (fun a b => key a ≤ key b) l) :
    (insertStable key x l).filter (fun e => key e == k) =
      l.filter (fun e => key e == k) ++ [x] := by
  induction l with
  | nil => simp [insertStable, List.filter_cons, hk]
  | cons y ys ih =>
    obtain ⟨hy, hys⟩ := List.pairwise_cons.mp hsort
    by_cases hlt : key x < key y
    · rw [insertStable, if_pos hlt]
      have hnil : (y :: ys).filter (fun e => key e == k) = [] := by
        rw [List.filter_eq_nil_iff]
        intro a ha
        have hka : key x < key a := by
          rcases List.mem_cons.mp ha with rfl | hays
          · exact hlt
          · exact lt_of_lt_of_le hlt (hy a hays)
        simp only [beq_iff_eq]
        omega
      rw [List.filter_cons]
      simp only [hk, beq_self_eq_true, if_pos]
      rw [hnil]
      rfl
    · rw [insertStable, if_neg hlt, List.filter_cons, List.filter_cons, ih hys]
      by_cases hyk : key y == k
      · simp only [hyk, if_pos]
        rfl
      · simp only [hyk]
        rfl

theorem sortFold_perm {α : Type} (key : α → Nat) :
    ∀ (l acc : List α),
      List.Perm (l.foldl (fun a x => insertStable key x a) acc) (acc ++ l) := by
  intro l
  induction l with
  | nil => intro acc; simp
  | cons x xs ih =>
    intro acc
    refine (ih (insertStable key x acc)).trans ?_
    refine ((insertStable_perm key x acc).append_right xs).trans ?_
    exact List.perm_middle.symm

theorem sortFold_pairwise {α : Type} (key : α → Nat) :
    ∀ (l acc : List α), List.Pairwise (fun a b => key a ≤ key b) acc →
      List.Pairwise (fun a b => key a ≤ key b)
        (l.foldl (fun a x => insertStable key x a) acc) := by
  intro l
  induction l with
  | nil => intro acc h; exact h
  | cons x xs ih =>
    intro acc h
    exact ih (insertStable key x acc) (insertStable_pairwise key x acc h)

theorem sortFold_filter {α : Type} (key : α → Nat) (k : Nat) :
    ∀ (l acc : List α), List.Pairwise (fun a b => key a ≤ key b) acc →
      (l.foldl (fun a x => insertStable key x a) acc).filter
          (fun e => key e == k) =
        acc.filter (fun e => key e == k) ++ l.filter (fun e => key e == k) := by
  intro l
  induction l with
  | nil => intro acc _; simp
  | cons x xs ih =>
    intro acc hacc
    rw [List.foldl_cons, ih (insertStable key x acc)
      (insertStable_pairwise key x acc hacc)]
    by_cases hxk : key x = k
    · rw [insertStable_filter_of_eq key x acc k hxk hacc, List.filter_cons]
      simp only [hxk, beq_self_eq_true, if_pos, List.append_assoc]
      rfl
    · rw [insertStable_filter_of_ne key x acc k hxk, List.filter_cons]
      have : (key x == k) = false := by simp [hxk]
      simp only [this]
      rfl

theorem insertStable_append_of_le {α : Type} (key : α → Nat) (x : α)
    (l : List α) (h : ∀ y ∈ l, ¬ key x < key y) :
    insertStable key x l = l ++ [x] := by
  induction l with
  | nil => rfl
  | cons y ys ih =>
    rw [insertStable, if_neg (h y (List.mem_cons_self y ys))]
    rw [ih fun z hz => h z (List.mem_cons_of_mem y hz)]
    rfl

theorem sortFold_sorted_eq {α : Type} (key : α → Nat) :
    ∀ (l acc : List α),
      List.Pairwise (fun a b => key a ≤ key b) (acc ++ l) →
      l.foldl (fun a x => insertStable key x a) acc = acc ++ l := by
  intro l
  induction l with
  | nil => intro acc _; simp
  | cons x xs ih =>
    intro acc h
    obtain ⟨_, _, hcross⟩ := List.pairwise_append.mp h
    have hins : insertStable key x acc = acc ++ [x] := by
      apply insertStable_append_of_le
      intro y hy
      have := hcross y hy x (List.mem_cons_self x xs)
      omega
    rw [List.foldl_cons, hins, ih (acc ++ [x]) (by simpa using h)]
    simp

theorem stableSortSpec_perm {α : Type} (key : α → Nat) (l : List α) :
    List.Perm (stableSortSpec key l) l := by
  simpa using sortFold_perm key l []

theorem stableSortSpec_pairwise {α : Type} (key : α → Nat) (l : List α) :
    List.Pairwise (fun a b => key a ≤ key b) (stableSortSpec key l) :=
  sortFold_pairwise key l [] (by simp)

theorem stableSortSpec_filter {α : Type} (key : α → Nat) (l : List α) (k : Nat) :
    (stableSortSpec key l).filter (fun e => key e == k) =
      l.filter (fun e => key e == k) := by
  simpa using sortFold_filter key k l [] (by simp)

theorem stableSortSpec_sorted_eq {α : Type} (key : α → Nat) (l : List α)
    (h : List.Pairwise (fun a b => key a ≤ key b) l) :
    stableSortSpec key l = l := by
  simpa using sortFold_sorted_eq key l [] (by simpa)

theorem orderKey_eq_length_iff (appOrder : List String) (s : String) :
    orderKey appOrder s = appOrder.length ↔ s ∉ appOrder := by
  induction appOrder with
  | nil => simp [orderKey]
  | cons x rest ih =>
    rw [orderKey]
    by_cases hx : x = s
    · subst hx
      rw [if_pos rfl]
      simp only [List.length_cons, List.mem_cons]
      constructor
      · intro h0
        exact absurd h0 (by omega)
      · intro hni
        exact (hni (Or.inl trivial)).elim
    · rw [if_neg hx]
      simp only [List.length_cons, List.mem_cons]
      constructor
      · intro h
        have := ih.mp (by omega)
        intro hcon
        rcases hcon with he | hm
        · exact hx he.symm
        · exact this hm
      · intro h
        have : s ∉ rest := fun hm => h (Or.inr hm)
        have := ih.mpr this
        omega

/-- Claim C4 (amended): reorder produces the connections sorted stably by
their appId's index in the order list, with connections whose appId is
absent placed after all present ones; connections in the same key class —
in particular all absent ones — preserve their relative insertion order;
there is no alphabetical tiebreak among absent appIds. -/
theorem reorderEntries_spec (items : List (String × String))
    (appOrder : List String) :
    List.Perm (reorderEntries items appOrder) items ∧
    List.Pairwise (fun a b => entryKey appOrder a ≤ entryKey appOrder b)
      (reorderEntries items appOrder) ∧
    (∀ k : Nat, (reorderEntries items appOrder).filter
        (fun e => entryKey appOrder e == k) =
      items.filter (fun e => entryKey appOrder e == k)) ∧
    (∀ e : String × String,
      entryKey appOrder e = appOrder.length ↔ e.2 ∉ appOrder) :=
  ⟨stableSortSpec_perm _ items, stableSortSpec_pairwise _ items,
    fun k => stableSortSpec_filter _ items k,
    fun e => orderKey_eq_length_iff appOrder e.2⟩

/-- Claim C4 counterexample: two connections whose appIds are both absent
from the order list keep their insertion order `zeta, alpha`; the claimed
case-insensitive alphabetical tiebreak would give `alpha, zeta`. -/
theorem reorderEntries_cex :
    reorderEntries [("u1", "zeta"), ("u2", "alpha")] [] =
      [("u1", "zeta"), ("u2", "alpha")] ∧
    reorderEntries [("u1", "zeta"), ("u2", "alpha")] [] ≠
      [("u2", "alpha"), ("u1", "zeta")] := by decide

/-- Claim C8: when the computed order equals the current order the reorder
returns the items unchanged and reports no change (the side-effect branch
is skipped), and reorder is idempotent: re-running it on its own output
returns the same list and reports no change. -/
theorem reorderItems_idem (items : List (String × String))
    (appOrder : List String) :
    (items.map Prod.fst = (reorderEntries items appOrder).map Prod.fst →
      reorderItems items appOrder = (items, false)) ∧
    reorderItems (reorderItems items appOrder).1 appOrder =
      ((reorderItems items appOrder).1, false) := by
  have hbranch : ∀ h : items.map Prod.fst =
      (reorderEntries items appOrder).map Prod.fst,
      reorderItems items appOrder = (items, false) := by
    intro h
    show (if items.map Prod.fst = (reorderEntries items appOrder).map Prod.fst
      then (items, false) else (reorderEntries items appOrder, true)) = (items, false)
    rw [if_pos h]
  refine ⟨hbranch, ?_⟩
  by_cases h : items.map Prod.fst = (reorderEntries items appOrder).map Prod.fst
  · rw [hbranch h]
    exact hbranch h
  · have h1 : reorderItems items appOrder = (reorderEntries items appOrder, true) := by
      show (if items.map Prod.fst = (reorderEntries items appOrder).map Prod.fst
        then (items, false) else (reorderEntries items appOrder, true)) =
        (reorderEntries items appOrder, true)
      rw [if_neg h]
    rw [h1]
    have heq : reorderEntries (reorderEntries items appOrder) appOrder =
        reorderEntries items appOrder :=
      stableSortSpec_sorted_eq _ _ (stableSortSpec_pairwise _ items)
    show (if (reorderEntries items appOrder).map Prod.fst =
        (reorderEntries (reorderEntries items appOrder) appOrder).map Prod.fst
      then ((reorderEntries items appOrder), false)
      else (reorderEntries (reorderEntries items appOrder) appOrder, true)) =
      ((reorderEntries items appOrder), false)
    rw [heq, if_pos rfl]

theorem reorderItems_idem_witness :
    ((([("u2", "b"), ("u1", "a")] : List (String × String)).map Prod.fst =
        (reorderEntries [("u2", "b"), ("u1", "a")] ["a", "b"]).map Prod.fst →
      reorderItems [("u2", "b"), ("u1", "a")] ["a", "b"] =
        ([("u2", "b"), ("u1", "a")], false)) ∧
    reorderItems (reorderItems [("u2", "b"), ("u1", "a")] ["a", "b"]).1
        ["a", "b"] =
      ((reorderItems [("u2", "b"), ("u1", "a")] ["a", "b"]).1, false)) ∧
    (reorderItems [("u2", "b"), ("u1", "a")] ["a", "b"]).1 =
      [("u1", "a"), ("u2", "b")] :=
  ⟨reorderItems_idem [("u2", "b"), ("u1", "a")] ["a", "b"], by decide⟩

/-! ### C5: identity re-resolution and notifications -/

/-- Claim C5 (amended): the proxy-based re-resolution `_resolveAppId` is
idempotent at the notification boundary — a resolution leaving the current
appId unchanged emits no `appid-resolved` notification, and a change emits
the notification exactly once with the new value; the direct-fallback chain
`_fetchIdDirect`, however, emits on every successful resolution, even when
the resolved value equals the current appId. -/
theorem resolveAppId_idem_spec (oldAppId : String)
    (toolTipTitle iconThemePath sniId : Option String) (t : String)
    (ht : t ≠ "") :
    ((resolveAppId oldAppId toolTipTitle iconThemePath sniId).1 = oldAppId →
      (resolveAppId oldAppId toolTipTitle iconThemePath sniId).2 = []) ∧
    ((resolveAppId oldAppId toolTipTitle iconThemePath sniId).1 ≠ oldAppId →
      (resolveAppId oldAppId toolTipTitle iconThemePath sniId).2 =
        [(resolveAppId oldAppId toolTipTitle iconThemePath sniId).1]) ∧
    (∀ r1 r2 : Option String, fetchIdDirect oldAppId (some t) r1 r2 = (t, [t])) := by
  refine ⟨?_, ?_, ?_⟩
  · intro h1
    cases hc : resolveCandidate toolTipTitle iconThemePath sniId with
    | none => simp [resolveAppId, hc]
    | some v =>
      by_cases hv : v = oldAppId
      · subst hv
        simp [resolveAppId, hc]
      · rw [resolveAppId, hc] at h1
        simp [hv] at h1
  · intro hne
    cases hc : resolveCandidate toolTipTitle iconThemePath sniId with
    | none => rw [resolveAppId, hc] at hne ⊢; exact absurd rfl hne
    | some v =>
      by_cases hv : v = oldAppId
      · subst hv
        rw [resolveAppId, hc] at hne ⊢
        simp at hne ⊢
      · simp [resolveAppId, hc, hv]
  · intro r1 r2
    simp [fetchIdDirect, ht]

theorem resolveAppId_idem_spec_witness :
    ("x" ≠ "") ∧
    (((resolveAppId "app" (some "other") none none).1 = "app" →
        (resolveAppId "app" (some "other") none none).2 = []) ∧
      ((resolveAppId "app" (some "other") none none).1 ≠ "app" →
        (resolveAppId "app" (some "other") none none).2 =
          [(resolveAppId "app" (some "other") none none).1]) ∧
      (∀ r1 r2 : Option String,
        fetchIdDirect "app" (some "x") r1 r2 = ("x", ["x"]))) :=
  ⟨by decide, resolveAppId_idem_spec "app" (some "other") none none "x" (by decide)⟩

/-- Claim C5 counterexample: in the direct-fallback path a successful
ToolTip reply whose title equals the current appId "app" still emits an
`appid-resolved` notification — the claim requires no emission when the
resolved value equals the current appId. -/
theorem fetchIdDirect_cex :
    fetchIdDirect "app" (some "app") none none = ("app", ["app"]) ∧
    (fetchIdDirect "app" (some "app") none none).2 ≠ [] := by decide

/-! ### C1: icon override precedence -/

theorem contains_false_of_not_mem {l : List String} {a : String}
    (h : a ∉ l) : l.contains a = false := by
  cases hc : l.contains a
  · rfl
  · exact absurd (by simpa using hc) h

theorem contains_true_of_mem {l : List String} {a : String}
    (h : a ∈ l) : l.contains a = true := by
  simpa using h

/-- Claim C1 (amended): for every appId with a non-empty entry in the
override map, if the appId is not listed in the fallback-only map the
override is used immediately (an absolute path yields a file icon, any
other string a named icon) regardless of the item's advertised icon; if
the appId is listed in the fallback-only map and the item advertises a
non-empty named icon, the resolution equals `_setIcon` on the advertised
name — a function that never consults the override map — so the override
is not used.  (An empty-string override entry is falsy in
`if (overrides[this._appId])` and is ignored entirely.) -/
theorem updateIcon_override_spec (appId o : String)
    (overrides : List (String × String)) (fallbackApps : List String)
    (proxy : Option ProxyProps) (pr : ProxyProps) (themePath : Option String)
    (env : FsEnv) (n : String)
    (hov : lookupStr overrides appId = some o) :
    (o ≠ "" → appId ∉ fallbackApps →
      updateIcon appId overrides fallbackApps proxy themePath env =
        (if strStarts "/" o then IconRes.file o else IconRes.named o)) ∧
    (appId ∈ fallbackApps → pr.iconName = some n → n ≠ "" →
      updateIcon appId overrides fallbackApps (some pr) themePath env =
        setIcon env themePath n) := by
  constructor
  · intro ho hnm
    simp [updateIcon, hov, ho, contains_false_of_not_mem hnm]
    exact fun h => absurd h hnm
  · intro hmem hname hn
    by_cases ho : o = ""
    · subst ho
      simp [updateIcon, hov, updateIconRest, hname, hn]
    · simp [updateIcon, hov, ho, contains_true_of_mem hmem, updateIconRest,
        hname, hn]
      exact fun h => absurd hmem h

theorem updateIcon_override_spec_witness :
    lookupStr [("X", "ov")] "X" = some "ov" ∧
    (("ov" ≠ "" → "X" ∉ (["Y"] : List String) →
      updateIcon "X" [("X", "ov")] ["Y"]
          (some ⟨some "bar", none⟩) none
          ⟨fun _ => false, fun _ => none, none, none, none, none⟩ =
        (if strStarts "/" "ov" then IconRes.file "ov" else IconRes.named "ov")) ∧
    ("X" ∈ (["Y"] : List String) →
      (ProxyProps.mk (some "bar") none).iconName = some "bar" → "bar" ≠ "" →
      updateIcon "X" [("X", "ov")] ["Y"]
          (some ⟨some "bar", none⟩) none
          ⟨fun _ => false, fun _ => none, none, none, none, none⟩ =
        setIcon ⟨fun _ => false, fun _ => none, none, none, none, none⟩
          none "bar")) :=
  ⟨by decide,
    updateIcon_override_spec "X" "ov" [("X", "ov")] ["Y"]
      (some ⟨some "bar", none⟩) ⟨some "bar", none⟩ none
      ⟨fun _ => false, fun _ => none, none, none, none, none⟩ "bar" (by decide)⟩

/-- Claim C1 counterexample: an empty-string override entry is an entry of
the override map, yet it is falsy in `if (overrides[this._appId])` and the
code ignores it: with override map `{X: ""}`, an empty fallback-only list
and advertised icon "bar", resolution yields the advertised named icon
"bar" instead of the override-mandated `Named("")`. -/
theorem updateIcon_override_cex :
    lookupStr [("X", "")] "X" = some "" ∧
    updateIcon "X" [("X", "")] [] (some ⟨some "bar", none⟩) none
        ⟨fun _ => false, fun _ => none, none, none, none, none⟩ =
      IconRes.named "bar" ∧
    updateIcon "X" [("X", "")] [] (some ⟨some "bar", none⟩) none
        ⟨fun _ => false, fun _ => none, none, none, none, none⟩ ≠
      IconRes.named "" := by
  refine ⟨rfl, rfl, ?_⟩
  decide

/-! ### C9: menu separator collapsing -/

theorem endsWithSep_append_single (l : List MenuEntry) (e : MenuEntry) :
    endsWithSep (l ++ [e]) = isSepEntry e := by
  induction l with
  | nil => rfl
  | cons a rest ih =>
    show endsWithSep (a :: (rest ++ [e])) = isSepEntry e
    rw [endsWithSep]
    have hne : (rest ++ [e]).isEmpty = false := by
      cases rest <;> rfl
    rw [hne]
    simpa using ih

theorem hasAdjSep_singleton (e : MenuEntry) :
    hasAdjacentSeparator [e] = false := by
  rw [hasAdjacentSeparator]

theorem hasAdjSep_cons_cons (a b : MenuEntry) (rest : List MenuEntry) :
    hasAdjacentSeparator (a :: b :: rest) =
      ((isSepEntry a && isSepEntry b) || hasAdjacentSeparator (b :: rest)) := by
  rw [hasAdjacentSeparator]

theorem hasAdjSep_append_single (l : List MenuEntry) (e : MenuEntry)
    (h1 : hasAdjacentSeparator l = false)
    (h2 : isSepEntry e = true → endsWithSep l = false) :
    hasAdjacentSeparator (l ++ [e]) = false := by
  induction l with
  | nil => exact hasAdjSep_singleton e
  | cons a rest ih =>
    cases rest with
    | nil =>
      show hasAdjacentSeparator [a, e] = false
      rw [hasAdjSep_cons_cons, hasAdjSep_singleton]
      cases hse : isSepEntry e
      · simp
      · have ha : endsWithSep [a] = false := h2 hse
        have ha2 : isSepEntry a = false := by
          rw [endsWithSep] at ha
          simpa using ha
        simp [ha2]
    | cons b rest2 =>
      rw [hasAdjSep_cons_cons] at h1
      have hab : (isSepEntry a && isSepEntry b) = false := by
        cases hx : (isSepEntry a && isSepEntry b)
        · rfl
        · rw [hx] at h1; simp at h1
      have hrest : hasAdjacentSeparator (b :: rest2) = false := by
        cases hx : hasAdjacentSeparator (b :: rest2)
        · rfl
        · rw [hx] at h1; simp at h1
      have h2' : isSepEntry e = true → endsWithSep (b :: rest2) = false := by
        intro hse
        have := h2 hse
        rw [endsWithSep] at this
        simpa using this
      show hasAdjacentSeparator (a :: b :: (rest2 ++ [e])) = false
      rw [hasAdjSep_cons_cons, hab]
      simpa using ih hrest h2'

mutual
theorem addMenuItem_inv (n : RawNode) :
    ∀ (st : List MenuEntry × Option String),
      hasAdjacentSeparator st.1 = false →
      (st.2 ≠ some "separator" → endsWithSep st.1 = false) →
      (hasAdjacentSeparator (addMenuItem st n).1 = false ∧
        ((addMenuItem st n).2 ≠ some "separator" →
          endsWithSep (addMenuItem st n).1 = false)) := by
  cases n with
  | node id lbl vis en ty cd children =>
    intro st h1 h2
    rw [addMenuItem]
    by_cases hvis : (vis.getD true) = false
    · rw [if_pos hvis]
      exact ⟨h1, h2⟩
    · rw [if_neg hvis]
      by_cases hroot : stripMnemonics (lbl.getD "") = "" ∧ id = 0
      · rw [if_pos hroot]
        exact addMenuItems_inv children st h1 h2
      · rw [if_neg hroot]
        by_cases hsep : ty.getD "" = "separator" ∨ stripMnemonics (lbl.getD "") = ""
        · rw [if_pos hsep]
          by_cases hlast : st.2 = some "separator"
          · rw [if_pos hlast]
            exact ⟨h1, h2⟩
          · rw [if_neg hlast]
            refine ⟨?_, ?_⟩
            · exact hasAdjSep_append_single st.1 MenuEntry.separator h1
                (fun _ => h2 hlast)
            · intro hcon
              exact absurd rfl hcon
        · rw [if_neg hsep]
          by_cases hsub : cd.getD "" = "submenu" ∧ children.isNil = false
          · rw [if_pos hsub]
            refine ⟨?_, ?_⟩
            · exact hasAdjSep_append_single st.1 _ h1 (fun hc => by simp [isSepEntry] at hc)
            · intro _
              rw [endsWithSep_append_single]
              rfl
          · rw [if_neg hsub]
            apply addMenuItems_inv children
            · exact hasAdjSep_append_single st.1 _ h1 (fun hc => by simp [isSepEntry] at hc)
            · intro _
              rw [endsWithSep_append_single]
              rfl

theorem addMenuItems_inv (f : RawForest) :
    ∀ (st : List MenuEntry × Option String),
      hasAdjacentSeparator st.1 = false →
      (st.2 ≠ some "separator" → endsWithSep st.1 = false) →
      (hasAdjacentSeparator (addMenuItems st f).1 = false ∧
        ((addMenuItems st f).2 ≠ some "separator" →
          endsWithSep (addMenuItems st f).1 = false)) := by
  cases f with
  | nil =>
    intro st h1 h2
    exact ⟨h1, h2⟩
  | cons h t =>
    intro st h1 h2
    rw [addMenuItems]
    obtain ⟨g1, g2⟩ := addMenuItem_inv h st h1 h2
    exact addMenuItems_inv t (addMenuItem st h) g1 g2
end

/-- Claim C9 (amended): a visible node typed as separator (or bearing an
empty label, except the id-0 unwrapping case) becomes a separator marker;
in the top-level menu two or more consecutive such nodes collapse to a
single separator — the built top-level entry list never contains two
adjacent separators — while inside a submenu every separator node renders
its own separator with no collapsing. -/
theorem menu_separator_spec :
    (∀ f : RawForest, hasAdjacentSeparator (buildMenu f) = false) ∧
    (∀ (acc : List MenuEntry) (id : Int) (en : Option Bool)
        (cd : Option String) (ch : RawForest),
      addSubMenuItem acc (RawNode.node id none (some true) en
          (some "separator") cd ch) = acc ++ [MenuEntry.separator]) ∧
    (∀ (menu : List MenuEntry) (id : Int) (en : Option Bool)
        (cd : Option String) (ch : RawForest),
      addMenuItem (menu, some "separator")
          (RawNode.node id (some "a") (some true) en (some "separator") cd ch) =
        (menu, some "separator")) ∧
    (∀ (menu : List MenuEntry) (last : Option String) (id : Int)
        (en : Option Bool) (cd : Option String) (ch : RawForest),
      last ≠ some "separator" →
      addMenuItem (menu, last)
          (RawNode.node id (some "a") (some true) en (some "separator") cd ch) =
        (menu ++ [MenuEntry.separator], some "separator")) := by
  refine ⟨?_, ?_, ?_, ?_⟩
  · intro f
    exact (addMenuItems_inv f ([], none) rfl (fun _ => rfl)).1
  · intro acc id en cd ch
    rfl
  · intro menu id en cd ch
    rfl
  · intro menu last id en cd ch hlast
    rw [addMenuItem]
    rw [if_neg (by simp)]
    rw [if_neg (fun hcon => absurd hcon.1 (by decide))]
    have hcond : (some "separator").getD "" = "separator" ∨
        stripMnemonics ((some "a").getD "") = "" := Or.inl rfl
    rw [if_pos hcond]
    rw [if_neg hlast]

theorem menu_separator_spec_witness :
    ((some "item" : Option String) ≠ some "separator") ∧
    addMenuItem ([MenuEntry.item "x" true 1], some "item")
        (RawNode.node 2 (some "a") (some true) none (some "separator") none
          RawForest.nil) =
      ([MenuEntry.item "x" true 1] ++ [MenuEntry.separator], some "separator") :=
  ⟨by decide,
    menu_separator_spec.2.2.2 [MenuEntry.item "x" true 1] (some "item") 2 none
      none RawForest.nil (by decide)⟩

/-- Claim C9 counterexample: a submenu whose children are two consecutive
separator-typed visible nodes renders two separators, where the claim
demands exactly one. -/
theorem menu_separator_cex :
    buildMenu (RawForest.cons
        (RawNode.node 2 (some "m") none none none (some "submenu")
          (RawForest.cons
            (RawNode.node 3 none none none (some "separator") none RawForest.nil)
            (RawForest.cons
              (RawNode.node 4 none none none (some "separator") none
                RawForest.nil)
              RawForest.nil)))
        RawForest.nil) =
      [MenuEntry.submenu "m" true [MenuEntry.separator, MenuEntry.separator]] ∧
    hasAdjacentSeparator [MenuEntry.separator, MenuEntry.separator] = true :=
  ⟨rfl, rfl⟩

/-! ### C10: theme-chain resolution -/

theorem resolveGo_inv (themes : List (String × List String)) :
    ∀ (queue visited chain : List String),
      chain.Nodup → (∀ x, x ∈ chain ↔ x ∈ visited) →
      ((resolveGo themes queue visited chain).2.Nodup ∧
        (∀ x, x ∈ (resolveGo themes queue visited chain).2 ↔
          x ∈ (resolveGo themes queue visited chain).1)) := by
  intro queue visited chain
  induction queue, visited, chain using resolveGo.induct themes with
  | case1 visited chain =>
    intro h1 h2
    rw [resolveGo]
    exact ⟨h1, h2⟩
  | case2 name rest visited chain hmem ih =>
    intro h1 h2
    rw [resolveGo, if_pos hmem]
    exact ih h1 h2
  | case3 name rest visited chain hmem ih =>
    intro h1 h2
    rw [resolveGo, if_neg hmem]
    apply ih
    · have hnc : name ∉ chain := fun hc => hmem ((h2 name).mp hc)
      simp [List.nodup_append, h1, hnc]
    · intro x
      rw [List.mem_append, List.mem_singleton, h2 x, List.mem_cons]
      tauto

/-- Claim C10: theme-inheritance chain resolution terminates for every
start theme and (finite) icon-directory contents, including `Inherits=`
graphs with cycles — the BFS is a total function by well-founded recursion
on the unvisited part of the finite theme universe — and its result is a
duplicate-free list of theme names that always contains "hicolor". -/
theorem resolveThemeChain_spec (themes : List (String × List String))
    (themeName : String) :
    (resolveThemeChain themes themeName).Nodup ∧
    "hicolor" ∈ resolveThemeChain themes themeName := by
  have h := resolveGo_inv themes [themeName] [] [] List.nodup_nil (by simp)
  rw [resolveThemeChain]
  by_cases hh : "hicolor" ∈ (resolveGo themes [themeName] [] []).1
  · rw [if_pos hh]
    exact ⟨h.1, (h.2 _).mpr hh⟩
  · rw [if_neg hh]
    constructor
    · have hnotin : "hicolor" ∉ (resolveGo themes [themeName] [] []).2 :=
        fun hc => hh ((h.2 _).mp hc)
      simp [List.nodup_append, h.1, hnotin]
    · simp

end StatusTray
